import Mathlib

/-!
Shallow embedding of `src/non_RL_algos/loadBalance.py` (RealVNF/coord-env-interface).

Python dictionaries are modelled as insertion-ordered association lists
(`List (String × α)`) with Python-dict update semantics: assigning to an
existing key replaces its value in place, assigning to a fresh key appends
it at the end.  Floating-point probabilities are modelled as rationals.
The external simulator and the external normalizer
`normalize_scheduling_probabilities` (imported from
`common.common_functionalities`, not part of this repository fragment) are
modelled as function parameters; claims about them are stated as hypotheses.
-/

namespace LoadBalance

/-- Python-dict lookup on an insertion-ordered association list. -/
def dictGet {α : Type} (k : String) : List (String × α) → Option α
  | [] => none
  | (k', v) :: rest => if k' = k then some v else dictGet k rest

/-- Python-dict assignment `d[k] = v`: replace in place if `k` is present,
append at the end otherwise. -/
def dictSet {α : Type} (k : String) (v : α) : List (String × α) → List (String × α)
  | [] => [(k, v)]
  | (k', v') :: rest => if k' = k then (k, v) :: rest else (k', v') :: dictSet k v rest

@[simp]
theorem dictGet_nil {α : Type} (k : String) : dictGet (α := α) k [] = none := rfl

theorem dictGet_dictSet {α : Type} (k k' : String) (v : α) (d : List (String × α)) :
    dictGet k' (dictSet k v d) = if k = k' then some v else dictGet k' d := by
  induction d with
  | nil =>
    by_cases h : k = k' <;> simp [dictSet, dictGet, h]
  | cons hd tl ih =>
    obtain ⟨k0, v0⟩ := hd
    by_cases h0 : k0 = k
    · subst h0
      by_cases h1 : k0 = k'
      · subst h1; simp [dictSet, dictGet]
      · simp [dictSet, dictGet, h1]
    · by_cases h1 : k0 = k'
      · subst h1
        have hkk : ¬ k = k0 := fun h => h0 h.symm
        simp [dictSet, dictGet, h0, hkk]
      · simp [dictSet, dictGet, h0, h1, ih]

theorem dictSet_of_eq {α : Type} (k : String) (v : α) (d : List (String × α))
    (h : dictGet k d = some v) : dictSet k v d = d := by
  induction d with
  | nil => simp [dictGet] at h
  | cons hd tl ih =>
    obtain ⟨k0, v0⟩ := hd
    by_cases h0 : k0 = k
    · subst h0
      simp [dictGet] at h
      simp [dictSet, h]
    · simp [dictGet, h0] at h
      simp [dictSet, h0, ih h]

theorem dictSet_of_none {α : Type} (k : String) (v : α) (d : List (String × α))
    (h : dictGet k d = none) : dictSet k v d = d ++ [(k, v)] := by
  induction d with
  | nil => simp [dictSet]
  | cons hd tl ih =>
    obtain ⟨k0, v0⟩ := hd
    by_cases h0 : k0 = k
    · subst h0; simp [dictGet] at h
    · simp [dictGet, h0] at h
      simp [dictSet, h0, ih h]

theorem dictGet_append_of_none {α : Type} (k : String) (a b : List (String × α))
    (h : dictGet k a = none) : dictGet k (a ++ b) = dictGet k b := by
  induction a with
  | nil => simp
  | cons hd tl ih =>
    obtain ⟨k0, v0⟩ := hd
    by_cases h0 : k0 = k
    · subst h0; simp [dictGet] at h
    · simp [dictGet, h0] at h
      simp [dictGet, h0, ih h]

/-- First-occurrence lookup in a list of pairs built by pairing each key with
the same value. -/
theorem dictGet_map_const {α : Type} (x : String) (v : α) (l : List String)
    (hx : x ∈ l) : dictGet x (l.map (fun y => (y, v))) = some v := by
  induction l with
  | nil => cases hx
  | cons hd tl ih =>
    by_cases h0 : hd = x
    · simp [dictGet, h0]
    · have : x ∈ tl := by
        cases hx with
        | head => exact absurd rfl h0
        | tail _ h => exact h
      simp [dictGet, h0, ih this]

/-- `get_placement` from `loadBalance.py`: places each service function in
each node of the network (`placement[node] = sf_list` for every node). -/
def get_placement (nodes_list sf_list : List String) : List (String × List String) :=
  nodes_list.foldl (fun placement node => dictSet node sf_list placement) []

theorem foldl_dictSet_eq_append (sf_list : List String) :
    ∀ (nodes : List String) (acc : List (String × List String)),
      nodes.Nodup → (∀ x ∈ nodes, dictGet x acc = none) →
      nodes.foldl (fun placement node => dictSet node sf_list placement) acc
        = acc ++ nodes.map (fun x => (x, sf_list)) := by
  intro nodes
  induction nodes with
  | nil => intro acc _ _; simp
  | cons hd tl ih =>
    intro acc hnd hnone
    have hhd : dictGet hd acc = none := hnone hd (List.mem_cons_self hd tl)
    have hset : dictSet hd sf_list acc = acc ++ [(hd, sf_list)] :=
      dictSet_of_none hd sf_list acc hhd
    have hnd' : tl.Nodup := hnd.of_cons
    have hhdtl : hd ∉ tl := (List.nodup_cons.mp hnd).1
    have hnone' : ∀ x ∈ tl, dictGet x (acc ++ [(hd, sf_list)]) = none := by
      intro x hxtl
      have hx : dictGet x acc = none := hnone x (List.mem_cons_of_mem hd hxtl)
      have hne : hd ≠ x := fun h => hhdtl (h ▸ hxtl)
      rw [dictGet_append_of_none x acc [(hd, sf_list)] hx]
      simp [dictGet, hne]
    calc (hd :: tl).foldl (fun placement node => dictSet node sf_list placement) acc
        = tl.foldl (fun placement node => dictSet node sf_list placement)
            (acc ++ [(hd, sf_list)]) := by rw [List.foldl_cons, hset]
      _ = acc ++ [(hd, sf_list)] ++ tl.map (fun x => (x, sf_list)) := ih _ hnd' hnone'
      _ = acc ++ (hd :: tl).map (fun x => (x, sf_list)) := by simp

/-- Closed form of `get_placement` for duplicate-free node lists. -/
theorem get_placement_eq (nodes_list sf_list : List String) (hnd : nodes_list.Nodup) :
    get_placement nodes_list sf_list = nodes_list.map (fun x => (x, sf_list)) := by
  have := foldl_dictSet_eq_append sf_list nodes_list [] hnd (by intro x _; simp)
  simpa [get_placement] using this

/-! ### `get_schedule`

`get_schedule` builds a four-level nested `defaultdict`
`schedule[outer_node][sfc][sf][inner_node] = uniform_prob_list.pop()`.
For each `(outer_node, sfc, sf)` triple it normalizes an all-zero list of
length `len(nodes_list)` and pops values from the *end* of the resulting
list, one per inner node.  `list.pop()` on an empty list raises
`IndexError`; fallibility is modelled with `Option`.  The external
normalizer is a function parameter. -/

/-- Innermost distribution: destination node ↦ probability. -/
abbrev Dist := List (String × ℚ)

/-- `sf ↦ Dist` level of the schedule. -/
abbrev SfMap := List (String × Dist)

/-- `sfc ↦ SfMap` level of the schedule. -/
abbrev SfcMap := List (String × SfMap)

/-- The full schedule: `outer node ↦ sfc ↦ sf ↦ Dist`. -/
abbrev Sched := List (String × SfcMap)

instance instDecEqSfMap : DecidableEq SfMap := inferInstance

instance instDecEqSfcMap : DecidableEq SfcMap := inferInstance

instance instDecEqSched : DecidableEq Sched := inferInstance

/-- Python `list.pop()`: remove and return the last element; `none` models
the `IndexError` on an empty list. -/
def pyPop (l : List ℚ) : Option (ℚ × List ℚ) :=
  match l.getLast? with
  | none => none
  | some v => some (v, l.dropLast)

/-- The innermost loop of `get_schedule`: for each inner node in order,
assign `schedule[...][inner] = probs.pop()` into the current leaf dict. -/
def assignInner : List String → List ℚ → Dist → Option Dist
  | [], _, dist => some dist
  | inner :: rest, probs, dist =>
    match pyPop probs with
    | none => none
    | some (v, probs') => assignInner rest probs' (dictSet inner v dist)

/-- Reading `schedule[o][c][f]` through the `defaultdict` chain: absent
levels read as empty dicts. -/
def getLeafD (s : Sched) (o c f : String) : Dist :=
  (dictGet f ((dictGet c ((dictGet o s).getD [])).getD [])).getD []

/-- Writing a finished leaf back: the `defaultdict` chain materializes each
level on first access. -/
def setLeaf (s : Sched) (o c f : String) (dist : Dist) : Sched :=
  let sfcMap := (dictGet o s).getD []
  let sfMap := (dictGet c sfcMap).getD []
  dictSet o (dictSet c (dictSet f dist sfMap) sfcMap) s

/-- Loop `for sf in sf_list` of `get_schedule` for a fixed outer node and
sfc: build the fresh all-zero list, normalize it, and pop one value per
inner node. -/
def schedLoopSf (normalize : List ℚ → List ℚ) (nodes_list : List String)
    (outer sfc : String) : List String → Sched → Option Sched
  | [], s => some s
  | sf :: rest, s =>
    match assignInner nodes_list
        (normalize (List.replicate nodes_list.length 0)) (getLeafD s outer sfc sf) with
    | none => none
    | some dist => schedLoopSf normalize nodes_list outer sfc rest (setLeaf s outer sfc sf dist)

/-- Loop `for sfc in sfc_list` of `get_schedule` for a fixed outer node. -/
def schedLoopSfc (normalize : List ℚ → List ℚ) (nodes_list sf_list : List String)
    (outer : String) : List String → Sched → Option Sched
  | [], s => some s
  | sfc :: rest, s =>
    match schedLoopSf normalize nodes_list outer sfc sf_list s with
    | none => none
    | some s' => schedLoopSfc normalize nodes_list sf_list outer rest s'

/-- Loop `for outer_node in nodes_list` of `get_schedule`. -/
def schedLoopOuter (normalize : List ℚ → List ℚ) (nodes_list sf_list sfc_list : List String) :
    List String → Sched → Option Sched
  | [], s => some s
  | outer :: rest, s =>
    match schedLoopSfc normalize nodes_list sf_list outer sfc_list s with
    | none => none
    | some s' => schedLoopOuter normalize nodes_list sf_list sfc_list rest s'

/-- `get_schedule` from `loadBalance.py`: uniform schedule over all nodes
for every `(outer node, sfc, sf)` triple. -/
def get_schedule (normalize : List ℚ → List ℚ)
    (nodes_list sf_list sfc_list : List String) : Option Sched :=
  schedLoopOuter normalize nodes_list sf_list sfc_list nodes_list []

/-- Strict lookup `schedule[o][c][f]` (present only if actually written). -/
def schedLookup (s : Sched) (o c f : String) : Option Dist :=
  (dictGet o s).bind (fun m => (dictGet c m).bind (fun m2 => dictGet f m2))

/-- The sequence of dict assignments performed by `assignInner`, replayed
as Python-dict updates. -/
def applyWrites (ws : List (String × ℚ)) (d : Dist) : Dist :=
  ws.foldl (fun d kv => dictSet kv.1 kv.2 d) d

theorem applyWrites_cons (k : String) (v : ℚ) (ws : List (String × ℚ)) (d : Dist) :
    applyWrites ((k, v) :: ws) d = applyWrites ws (dictSet k v d) := rfl

/-- `assignInner` pops from the end of `probs`, so it replays the write
sequence `nodes.zip probs.reverse`. -/
theorem assignInner_eq_applyWrites :
    ∀ (nodes : List String) (probs : List ℚ) (d : Dist),
      probs.length = nodes.length →
      assignInner nodes probs d = some (applyWrites (nodes.zip probs.reverse) d) := by
  intro nodes
  induction nodes with
  | nil => intro probs d _; simp [assignInner, applyWrites]
  | cons inner rest ih =>
    intro probs d h
    have hne : probs ≠ [] := by
      intro hp; rw [hp] at h; simp at h
    have hlast : probs.getLast? = some (probs.getLast hne) :=
      List.getLast?_eq_getLast_of_ne_nil hne
    have hrev : probs.reverse = probs.getLast hne :: probs.dropLast.reverse := by
      conv_lhs => rw [← List.dropLast_append_getLast hne]
      simp
    have hlen : probs.dropLast.length = rest.length := by
      rw [List.length_dropLast, h]; simp
    rw [hrev, List.zip_cons_cons, applyWrites_cons]
    show assignInner (inner :: rest) probs d = _
    simp only [assignInner, pyPop, hlast]
    exact ih probs.dropLast (dictSet inner (probs.getLast hne) d) hlen

theorem applyWrites_of_fresh :
    ∀ (ws : List (String × ℚ)) (d : Dist),
      (ws.map Prod.fst).Nodup → (∀ kv ∈ ws, dictGet kv.1 d = none) →
      applyWrites ws d = d ++ ws := by
  intro ws
  induction ws with
  | nil => intro d _ _; simp [applyWrites]
  | cons kv rest ih =>
    intro d hnd hfresh
    obtain ⟨k, v⟩ := kv
    rw [applyWrites_cons,
      dictSet_of_none k v d (hfresh (k, v) (List.mem_cons_self _ _))]
    have hk : k ∉ rest.map Prod.fst := (List.nodup_cons.mp hnd).1
    have hnd' : (rest.map Prod.fst).Nodup := (List.nodup_cons.mp hnd).2
    have hfresh' : ∀ kv2 ∈ rest, dictGet kv2.1 (d ++ [(k, v)]) = none := by
      intro kv2 hkv2
      have h2 : dictGet kv2.1 d = none := hfresh kv2 (List.mem_cons_of_mem _ hkv2)
      rw [dictGet_append_of_none _ _ _ h2]
      have hne : k ≠ kv2.1 := by
        intro he
        exact hk (he ▸ List.mem_map_of_mem Prod.fst hkv2)
      simp [dictGet, hne]
    rw [ih _ hnd' hfresh']
    simp

theorem applyWrites_of_present :
    ∀ (ws : List (String × ℚ)) (d : Dist),
      (∀ kv ∈ ws, dictGet kv.1 d = some kv.2) →
      applyWrites ws d = d := by
  intro ws
  induction ws with
  | nil => intro d _; rfl
  | cons kv rest ih =>
    intro d h
    obtain ⟨k, v⟩ := kv
    rw [applyWrites_cons, dictSet_of_eq k v d (h (k, v) (List.mem_cons_self _ _))]
    exact ih d (fun kv2 hkv2 => h kv2 (List.mem_cons_of_mem _ hkv2))

theorem dictGet_of_mem_nodup {α : Type} :
    ∀ (d : List (String × α)), (d.map Prod.fst).Nodup →
      ∀ kv ∈ d, dictGet kv.1 d = some kv.2 := by
  intro d
  induction d with
  | nil => intro _ kv hkv; cases hkv
  | cons hd tl ih =>
    intro hnd kv hkv
    obtain ⟨k0, v0⟩ := hd
    have hk0 : k0 ∉ tl.map Prod.fst := (List.nodup_cons.mp hnd).1
    cases hkv with
    | head => simp [dictGet]
    | tail _ htl =>
      have hne : k0 ≠ kv.1 := by
        intro he
        exact hk0 (he ▸ List.mem_map_of_mem Prod.fst htl)
      simp only [dictGet, hne, if_false]
      exact ih (List.nodup_cons.mp hnd).2 kv htl

theorem dictGet_zip_nodup :
    ∀ (nodes : List String) (vals : List ℚ), nodes.Nodup → nodes.length = vals.length →
      ∀ i (hi : i < nodes.length),
        dictGet (nodes.get ⟨i, hi⟩) (nodes.zip vals) = vals[i]? := by
  intro nodes
  induction nodes with
  | nil => intro vals _ _ i hi; cases hi
  | cons n0 rest ih =>
    intro vals hnd hlen i hi
    cases vals with
    | nil => simp at hlen
    | cons v0 vrest =>
      cases i with
      | zero => simp [dictGet]
      | succ j =>
        have hj : j < rest.length := Nat.lt_of_succ_lt_succ hi
        have hmem : (n0 :: rest).get ⟨j + 1, hi⟩ ∈ rest := by
          simp only [List.get_eq_getElem, List.getElem_cons_succ]
          exact rest.getElem_mem hj
        have hne : n0 ≠ (n0 :: rest).get ⟨j + 1, hi⟩ := by
          intro he
          exact (List.nodup_cons.mp hnd).1 (he ▸ hmem)
        have hlen' : rest.length = vrest.length := by
          simpa using hlen
        simp only [List.zip_cons_cons, dictGet, hne, if_false]
        have := ih vrest (List.nodup_cons.mp hnd).2 hlen' j hj
        simp only [List.get_eq_getElem, List.getElem_cons_succ] at this ⊢
        rw [show List.zipWith Prod.mk rest vrest = rest.zip vrest from rfl, this]
        simp

/-- The distribution written by one `(outer, sfc, sf)` iteration: inner
nodes in order, paired with the normalized list consumed from its end. -/
def canonDist (normalize : List ℚ → List ℚ) (nodes : List String) : Dist :=
  nodes.zip (normalize (List.replicate nodes.length 0)).reverse

theorem dictGet_getD_chain (s : Sched) (o c f : String) :
    dictGet f ((dictGet c ((dictGet o s).getD [])).getD []) = schedLookup s o c f := by
  unfold schedLookup
  cases h1 : dictGet o s with
  | none => simp [dictGet]
  | some m =>
    cases h2 : dictGet c m with
    | none => simp [h2, dictGet]
    | some m2 => simp [h2]

theorem getLeafD_eq (s : Sched) (o c f : String) :
    getLeafD s o c f = (schedLookup s o c f).getD [] := by
  unfold getLeafD
  rw [dictGet_getD_chain]

theorem schedLookup_setLeaf (s : Sched) (o c f o' c' f' : String) (dist : Dist) :
    schedLookup (setLeaf s o c f dist) o' c' f' =
      if o = o' ∧ c = c' ∧ f = f' then some dist else schedLookup s o' c' f' := by
  unfold setLeaf schedLookup
  rw [dictGet_dictSet]
  rcases eq_or_ne o o' with ho | ho
  · rw [if_pos ho, Option.some_bind, dictGet_dictSet]
    rcases eq_or_ne c c' with hc | hc
    · rw [if_pos hc, Option.some_bind, dictGet_dictSet]
      rcases eq_or_ne f f' with hf | hf
      · rw [if_pos hf, if_pos ⟨ho, hc, hf⟩]
      · rw [if_neg hf, if_neg (fun h => hf h.2.2)]
        rw [← ho, ← hc]
        exact dictGet_getD_chain s o c f'
      -- shape: `c ≠ c'`, lookup falls through to the untouched levels
    · rw [if_neg hc, if_neg (fun h => hc h.2.1), ← ho]
      cases h1 : dictGet o s with
      | none => simp [dictGet]
      | some m => simp
  · rw [if_neg ho, if_neg (fun h => ho h.1)]

/-- Invariant: every leaf distribution stored in the schedule equals `D`. -/
def AllLeaves (s : Sched) (D : Dist) : Prop :=
  ∀ o c f dist, schedLookup s o c f = some dist → dist = D

theorem allLeaves_nil (D : Dist) : AllLeaves [] D := by
  intro o c f dist h
  simp [schedLookup, dictGet] at h

theorem allLeaves_setLeaf (s : Sched) (D : Dist) (o c f : String)
    (hs : AllLeaves s D) : AllLeaves (setLeaf s o c f D) D := by
  intro o' c' f' dist h
  rw [schedLookup_setLeaf] at h
  by_cases hcond : o = o' ∧ c = c' ∧ f = f'
  · rw [if_pos hcond] at h
    exact (Option.some.inj h).symm
  · rw [if_neg hcond] at h
    exact hs o' c' f' dist h

theorem canonDist_keys_nodup (normalize : List ℚ → List ℚ) (nodes : List String)
    (hnd : nodes.Nodup)
    (hlen : (normalize (List.replicate nodes.length 0)).length = nodes.length) :
    ((canonDist normalize nodes).map Prod.fst).Nodup := by
  unfold canonDist
  rw [List.map_fst_zip]
  · exact hnd
  · simp [hlen]

/-- Starting from an empty leaf dict, `assignInner` produces the canonical
distribution. -/
theorem assignInner_nil_canon (normalize : List ℚ → List ℚ) (nodes : List String)
    (hnd : nodes.Nodup)
    (hlen : (normalize (List.replicate nodes.length 0)).length = nodes.length) :
    assignInner nodes (normalize (List.replicate nodes.length 0)) []
      = some (canonDist normalize nodes) := by
  rw [assignInner_eq_applyWrites nodes _ [] hlen]
  rw [applyWrites_of_fresh _ []
    (by
      have := canonDist_keys_nodup normalize nodes hnd hlen
      simpa [canonDist] using this)
    (by intro kv _; simp)]
  simp [canonDist]

/-- Re-running `assignInner` on an already-canonical leaf rewrites every
entry with its current value and leaves the leaf unchanged. -/
theorem assignInner_canon_canon (normalize : List ℚ → List ℚ) (nodes : List String)
    (hnd : nodes.Nodup)
    (hlen : (normalize (List.replicate nodes.length 0)).length = nodes.length) :
    assignInner nodes (normalize (List.replicate nodes.length 0)) (canonDist normalize nodes)
      = some (canonDist normalize nodes) := by
  rw [assignInner_eq_applyWrites nodes _ _ hlen]
  rw [show nodes.zip (normalize (List.replicate nodes.length 0)).reverse
      = canonDist normalize nodes from rfl]
  rw [applyWrites_of_present _ _
    (fun kv hkv =>
      dictGet_of_mem_nodup _ (canonDist_keys_nodup normalize nodes hnd hlen) kv hkv)]

theorem schedLoopSf_spec (normalize : List ℚ → List ℚ) (nodes : List String)
    (outer sfc : String) (hnd : nodes.Nodup)
    (hlen : (normalize (List.replicate nodes.length 0)).length = nodes.length) :
    ∀ (sfs : List String) (s : Sched), AllLeaves s (canonDist normalize nodes) →
      ∃ s', schedLoopSf normalize nodes outer sfc sfs s = some s' ∧
        AllLeaves s' (canonDist normalize nodes) ∧
        (∀ o c f, (schedLookup s o c f).isSome → (schedLookup s' o c f).isSome) ∧
        (∀ f ∈ sfs, (schedLookup s' outer sfc f).isSome) := by
  intro sfs
  induction sfs with
  | nil =>
    intro s hs
    exact ⟨s, rfl, hs, fun _ _ _ h => h, by intro f hf; cases hf⟩
  | cons sf rest ih =>
    intro s hs
    have hleaf : assignInner nodes (normalize (List.replicate nodes.length 0))
        (getLeafD s outer sfc sf) = some (canonDist normalize nodes) := by
      rw [getLeafD_eq]
      cases hlook : schedLookup s outer sfc sf with
      | none =>
        simpa using assignInner_nil_canon normalize nodes hnd hlen
      | some dist =>
        rw [hs outer sfc sf dist hlook]
        simpa using assignInner_canon_canon normalize nodes hnd hlen
    have hstep : schedLoopSf normalize nodes outer sfc (sf :: rest) s
        = schedLoopSf normalize nodes outer sfc rest
            (setLeaf s outer sfc sf (canonDist normalize nodes)) := by
      simp only [schedLoopSf, hleaf]
    obtain ⟨s', hrun, hall, hmono, hcov⟩ :=
      ih (setLeaf s outer sfc sf (canonDist normalize nodes))
        (allLeaves_setLeaf s _ outer sfc sf hs)
    refine ⟨s', by rw [hstep]; exact hrun, hall, ?_, ?_⟩
    · intro o c f h
      apply hmono
      rw [schedLookup_setLeaf]
      by_cases hcond : outer = o ∧ sfc = c ∧ sf = f
      · rw [if_pos hcond]; simp
      · rw [if_neg hcond]; exact h
    · intro f hf
      cases hf with
      | head =>
        apply hmono
        rw [schedLookup_setLeaf, if_pos ⟨rfl, rfl, rfl⟩]
        simp
      | tail _ htl => exact hcov f htl

theorem schedLoopSfc_spec (normalize : List ℚ → List ℚ) (nodes sf_list : List String)
    (outer : String) (hnd : nodes.Nodup)
    (hlen : (normalize (List.replicate nodes.length 0)).length = nodes.length) :
    ∀ (sfcs : List String) (s : Sched), AllLeaves s (canonDist normalize nodes) →
      ∃ s', schedLoopSfc normalize nodes sf_list outer sfcs s = some s' ∧
        AllLeaves s' (canonDist normalize nodes) ∧
        (∀ o c f, (schedLookup s o c f).isSome → (schedLookup s' o c f).isSome) ∧
        (∀ c ∈ sfcs, ∀ f ∈ sf_list, (schedLookup s' outer c f).isSome) := by
  intro sfcs
  induction sfcs with
  | nil =>
    intro s hs
    exact ⟨s, rfl, hs, fun _ _ _ h => h, by intro c hc; cases hc⟩
  | cons sfc rest ih =>
    intro s hs
    obtain ⟨s1, hrun1, hall1, hmono1, hcov1⟩ :=
      schedLoopSf_spec normalize nodes outer sfc hnd hlen sf_list s hs
    obtain ⟨s', hrun, hall, hmono, hcov⟩ := ih s1 hall1
    have hstep : schedLoopSfc normalize nodes sf_list outer (sfc :: rest) s
        = schedLoopSfc normalize nodes sf_list outer rest s1 := by
      simp only [schedLoopSfc, hrun1]
    refine ⟨s', by rw [hstep]; exact hrun, hall,
      fun o c f h => hmono o c f (hmono1 o c f h), ?_⟩
    intro c hc f hf
    cases hc with
    | head => exact hmono outer sfc f (hcov1 f hf)
    | tail _ htl => exact hcov c htl f hf

theorem schedLoopOuter_spec (normalize : List ℚ → List ℚ) (nodes sf_list sfc_list : List String)
    (hnd : nodes.Nodup)
    (hlen : (normalize (List.replicate nodes.length 0)).length = nodes.length) :
    ∀ (outers : List String) (s : Sched), AllLeaves s (canonDist normalize nodes) →
      ∃ s', schedLoopOuter normalize nodes sf_list sfc_list outers s = some s' ∧
        AllLeaves s' (canonDist normalize nodes) ∧
        (∀ o c f, (schedLookup s o c f).isSome → (schedLookup s' o c f).isSome) ∧
        (∀ o ∈ outers, ∀ c ∈ sfc_list, ∀ f ∈ sf_list, (schedLookup s' o c f).isSome) := by
  intro outers
  induction outers with
  | nil =>
    intro s hs
    exact ⟨s, rfl, hs, fun _ _ _ h => h, by intro o ho; cases ho⟩
  | cons outer rest ih =>
    intro s hs
    obtain ⟨s1, hrun1, hall1, hmono1, hcov1⟩ :=
      schedLoopSfc_spec normalize nodes sf_list outer hnd hlen sfc_list s hs
    obtain ⟨s', hrun, hall, hmono, hcov⟩ := ih s1 hall1
    have hstep : schedLoopOuter normalize nodes sf_list sfc_list (outer :: rest) s
        = schedLoopOuter normalize nodes sf_list sfc_list rest s1 := by
      simp only [schedLoopOuter, hrun1]
    refine ⟨s', by rw [hstep]; exact hrun, hall,
      fun o c f h => hmono o c f (hmono1 o c f h), ?_⟩
    intro o ho c hc f hf
    cases ho with
    | head => exact hmono outer c f (hcov1 c hc f hf)
    | tail _ htl => exact hcov o htl c hc f hf

/-- Under a length-preserving uniform normalizer, `get_schedule` succeeds
and every `(origin, chain, function)` triple of the input lists is mapped
to the canonical distribution. -/
theorem get_schedule_spec (normalize : List ℚ → List ℚ)
    (nodes sf_list sfc_list : List String) (hnd : nodes.Nodup)
    (hlen : (normalize (List.replicate nodes.length 0)).length = nodes.length) :
    ∃ s, get_schedule normalize nodes sf_list sfc_list = some s ∧
      ∀ o ∈ nodes, ∀ c ∈ sfc_list, ∀ f ∈ sf_list,
        schedLookup s o c f = some (canonDist normalize nodes) := by
  obtain ⟨s', hrun, hall, _, hcov⟩ :=
    schedLoopOuter_spec normalize nodes sf_list sfc_list hnd hlen nodes []
      (allLeaves_nil _)
  refine ⟨s', hrun, ?_⟩
  intro o ho c hc f hf
  have hsome := hcov o ho c hc f hf
  cases hlook : schedLookup s' o c f with
  | none => rw [hlook] at hsome; cases hsome
  | some dist => rw [hall o c f dist hlook]

/-! ### Totality of `get_schedule` without distinctness assumptions -/

theorem assignInner_isSome :
    ∀ (nodes : List String) (probs : List ℚ), probs.length = nodes.length →
      ∀ d, (assignInner nodes probs d).isSome := by
  intro nodes probs hlen d
  rw [assignInner_eq_applyWrites nodes probs d hlen]
  rfl

theorem schedLoopSf_isSome (normalize : List ℚ → List ℚ) (nodes : List String)
    (outer sfc : String)
    (hlen : (normalize (List.replicate nodes.length 0)).length = nodes.length) :
    ∀ (sfs : List String) (s : Sched),
      ∃ s', schedLoopSf normalize nodes outer sfc sfs s = some s' := by
  intro sfs
  induction sfs with
  | nil => intro s; exact ⟨s, rfl⟩
  | cons sf rest ih =>
    intro s
    have h := assignInner_isSome nodes _ hlen (getLeafD s outer sfc sf)
    cases hleaf : assignInner nodes (normalize (List.replicate nodes.length 0))
        (getLeafD s outer sfc sf) with
    | none => rw [hleaf] at h; cases h
    | some dist =>
      obtain ⟨s', hrun⟩ := ih (setLeaf s outer sfc sf dist)
      exact ⟨s', by simp only [schedLoopSf, hleaf]; exact hrun⟩

theorem schedLoopSfc_isSome (normalize : List ℚ → List ℚ) (nodes sf_list : List String)
    (outer : String)
    (hlen : (normalize (List.replicate nodes.length 0)).length = nodes.length) :
    ∀ (sfcs : List String) (s : Sched),
      ∃ s', schedLoopSfc normalize nodes sf_list outer sfcs s = some s' := by
  intro sfcs
  induction sfcs with
  | nil => intro s; exact ⟨s, rfl⟩
  | cons sfc rest ih =>
    intro s
    obtain ⟨s1, h1⟩ := schedLoopSf_isSome normalize nodes outer sfc hlen sf_list s
    obtain ⟨s', hrun⟩ := ih s1
    exact ⟨s', by simp only [schedLoopSfc, h1]; exact hrun⟩

theorem schedLoopOuter_isSome (normalize : List ℚ → List ℚ)
    (nodes sf_list sfc_list : List String)
    (hlen : (normalize (List.replicate nodes.length 0)).length = nodes.length) :
    ∀ (outers : List String) (s : Sched),
      ∃ s', schedLoopOuter normalize nodes sf_list sfc_list outers s = some s' := by
  intro outers
  induction outers with
  | nil => intro s; exact ⟨s, rfl⟩
  | cons outer rest ih =>
    intro s
    obtain ⟨s1, h1⟩ := schedLoopSfc_isSome normalize nodes sf_list outer hlen sfc_list s
    obtain ⟨s', hrun⟩ := ih s1
    exact ⟨s', by simp only [schedLoopOuter, h1]; exact hrun⟩

/-- `get_schedule` never hits the empty-pop error as long as the normalizer
preserves the length of its input, even for node lists with repeats. -/
theorem get_schedule_isSome (normalize : List ℚ → List ℚ)
    (nodes sf_list sfc_list : List String)
    (hlen : (normalize (List.replicate nodes.length 0)).length = nodes.length) :
    ∃ s, get_schedule normalize nodes sf_list sfc_list = some s :=
  schedLoopOuter_isSome normalize nodes sf_list sfc_list hlen nodes []

/-- Seed resolution in `main` of `loadBalance.py`: `if not args.seed:
args.seed = random.randint(1, 9999)`.  Python truthiness makes both an
absent seed (`None`) and an explicit seed `0` falsy, so both are replaced
by the random draw. -/
def resolveSeed (argSeed : Option Int) (randVal : Int) : Int :=
  match argSeed with
  | none => randVal
  | some s => if s = 0 then randVal else s

/-! ### Filesystem model and `copy_input_files`

The filesystem is a set of existing directory paths plus a map from file
paths to contents (both as lists, with membership/lookup semantics). -/

structure FS where
  dirs : List String
  files : List (String × String)
  deriving DecidableEq

/-- Split a character list at every occurrence of `sep` (the semantics of
Python's `str.split` with a one-character separator); `cur` is the
reversed current segment. -/
def splitChars (sep : Char) : List Char → List Char → List (List Char)
  | [], cur => [cur.reverse]
  | ch :: rest, cur =>
    if ch = sep then cur.reverse :: splitChars sep rest []
    else splitChars sep rest (ch :: cur)

/-- Join segments with a one-character separator (inverse of
`splitChars`). -/
def joinChars (sep : Char) : List (List Char) → List Char
  | [] => []
  | [x] => x
  | x :: rest => x ++ sep :: joinChars sep rest

/-- `os.path.basename`: the part after the last `/`. -/
def basename (p : String) : String :=
  ⟨(splitChars '/' p.data []).getLastD p.data⟩

/-- `os.path.splitext(...)[0]` applied to the basename: drop the part from
the last `.` on when the basename contains a dot (the leading-dot special
case of `splitext` is not modelled; no claim depends on it). -/
def stem (p : String) : String :=
  let parts := splitChars '.' (basename p).data []
  if parts.length ≤ 1 then basename p
  else ⟨joinChars '.' parts.dropLast⟩

/-- All the directories `os.makedirs` ensures on the way to `d`: each
prefix of the `/`-separated path. -/
def ancestorDirs (d : String) : List String :=
  let parts := splitChars '/' d.data []
  (List.range parts.length).map (fun i => ⟨joinChars '/' (parts.take (i + 1))⟩)

/-- `os.makedirs(d, exist_ok=...)`: ensure `d` and all its ancestors exist;
with `exist_ok=False` an already-existing `d` raises `FileExistsError`
(modelled as `none`). -/
def makedirs (fs : FS) (d : String) (exist_ok : Bool) : Option FS :=
  if d ∈ fs.dirs ∧ exist_ok = false then none
  else some { fs with
    dirs := fs.dirs ++ (ancestorDirs d ++ [d]).filter (fun p => decide (p ∉ fs.dirs)) }

/-- `shutil.copyfile(src, dst)`: read `src` (error if missing), write its
content at `dst`. -/
def copyfile (fs : FS) (src dst : String) : Option FS :=
  match dictGet src fs.files with
  | none => none
  | some content => some { fs with files := dictSet dst content fs.files }

/-- `copy_input_files` from `loadBalance.py`: create the results directory
and copy the three input files into it under their original basenames. -/
def copy_input_files (fs : FS)
    (target_dir network_path service_path sim_config_path : String) : Option FS :=
  let new_network_path := target_dir ++ "/" ++ basename network_path
  let new_service_path := target_dir ++ "/" ++ basename service_path
  let new_sim_config_path := target_dir ++ "/" ++ basename sim_config_path
  match makedirs fs target_dir true with
  | none => none
  | some fs1 =>
    match copyfile fs1 network_path new_network_path with
    | none => none
    | some fs2 =>
      match copyfile fs2 service_path new_service_path with
      | none => none
      | some fs3 => copyfile fs3 sim_config_path new_sim_config_path

/-! ### The run driver `main`

`main` is modelled by the trace of its external interactions: the single
`simulator.init(seed)` call, the `simulator.apply(action)` calls of the
loop, the three `copyfile` calls of `copy_input_files`, and the final
`create_input_file` call.  The simulator snapshot returned by `init` and
the ingress-node count read off the network graph are parameters. -/

/-- The `spinterface.SimulatorAction` pair submitted to `apply`. -/
structure SimulatorAction where
  placement : List (String × List String)
  schedule : Sched
  deriving DecidableEq

/-- The parts of the snapshot returned by `simulator.init` that `main`
reads: node ids, service-function ids, chain ids. -/
structure InitState where
  nodes : List String
  sfs : List String
  sfcs : List String

/-- One observable external interaction of `main`. -/
inductive Event where
  | init (seed : Int)
  | apply (a : SimulatorAction)
  | copyFile (src dst : String)
  | createInput (dir : String) (numIngress : Nat) (algo : String)
  deriving DecidableEq

def isApplyEvent : Event → Bool
  | .apply _ => true
  | _ => false

def isInitEvent : Event → Bool
  | .init _ => true
  | _ => false

def isCopyFileEvent : Event → Bool
  | .copyFile _ _ => true
  | _ => false

/-- `for i in range(iterations): apply_state = simulator.apply(action)`. -/
def applyLoop : Nat → SimulatorAction → List Event
  | 0, _ => []
  | k + 1, a => Event.apply a :: applyLoop k a

/-- The results directory `main` assembles from the project root, the
module-level timestamp, the three input path stems and the resolved seed. -/
def resultsDir (root dt network service config : String) (seed : Int) : String :=
  root ++ "/results/" ++ stem network ++ "/" ++ stem service ++ "/" ++ stem config
    ++ "/" ++ dt ++ "_seed" ++ toString seed

/-- The interaction trace of `main`: resolve the seed, init the simulator,
build placement and schedule once, apply the unchanged action
`iterations` times, then copy the input files and write the input
descriptor.  `none` models an uncaught exception from `get_schedule`. -/
def mainTrace (iterations : Nat) (seedArg : Option Int) (randVal : Int)
    (root dt network service config : String) (st : InitState) (ingressCount : Nat)
    (normalize : List ℚ → List ℚ) : Option (List Event) :=
  let seed := resolveSeed seedArg randVal
  let rdir := resultsDir root dt network service config seed
  let placement := get_placement st.nodes st.sfs
  match get_schedule normalize st.nodes st.sfs st.sfcs with
  | none => none
  | some schedule =>
    some ((Event.init seed :: applyLoop iterations ⟨placement, schedule⟩)
      ++ [Event.copyFile network (rdir ++ "/" ++ basename network),
          Event.copyFile service (rdir ++ "/" ++ basename service),
          Event.copyFile config (rdir ++ "/" ++ basename config),
          Event.createInput rdir ingressCount "LoadBalance"])

theorem mainTrace_eq (iterations : Nat) (seedArg : Option Int) (randVal : Int)
    (root dt network service config : String) (st : InitState) (ingressCount : Nat)
    (normalize : List ℚ → List ℚ) (sched : Sched)
    (hs : get_schedule normalize st.nodes st.sfs st.sfcs = some sched) :
    mainTrace iterations seedArg randVal root dt network service config st ingressCount
        normalize
      = some ((Event.init (resolveSeed seedArg randVal)
          :: applyLoop iterations ⟨get_placement st.nodes st.sfs, sched⟩)
        ++ [Event.copyFile network
              (resultsDir root dt network service config (resolveSeed seedArg randVal)
                ++ "/" ++ basename network),
            Event.copyFile service
              (resultsDir root dt network service config (resolveSeed seedArg randVal)
                ++ "/" ++ basename service),
            Event.copyFile config
              (resultsDir root dt network service config (resolveSeed seedArg randVal)
                ++ "/" ++ basename config),
            Event.createInput (resultsDir root dt network service config
              (resolveSeed seedArg randVal)) ingressCount "LoadBalance"]) := by
  simp only [mainTrace, hs]

theorem applyLoop_countP (n : Nat) (a : SimulatorAction) :
    (applyLoop n a).countP isApplyEvent = n := by
  induction n with
  | zero => rfl
  | succ k ih => simp [applyLoop, List.countP_cons, isApplyEvent, ih]

theorem mem_applyLoop (n : Nat) (a : SimulatorAction) (e : Event) :
    e ∈ applyLoop n a → e = Event.apply a := by
  induction n with
  | zero => intro h; cases h
  | succ k ih =>
    intro h
    cases h with
    | head => rfl
    | tail _ htl => exact ih htl

/-- In a trace split as `A ++ B` where `A` has no `p`-events and `B` has no
`q`-events, every `p`-event comes strictly after every `q`-event. -/
theorem split_no_cross {α : Type} (A B : List α) (p q : α → Bool)
    (hA : ∀ e ∈ A, p e = false) (hB : ∀ e ∈ B, q e = false) :
    ∀ i j ei ej, (A ++ B).get? i = some ei → p ei = true →
      (A ++ B).get? j = some ej → q ej = true → j < i := by
  intro i j ei ej hi hpi hj hqj
  have hiA : A.length ≤ i := by
    by_contra h
    push_neg at h
    rw [List.get?_append h] at hi
    rw [hA ei (List.get?_mem hi)] at hpi
    cases hpi
  have hjA : j < A.length := by
    by_contra h
    push_neg at h
    rw [List.get?_append_right h] at hj
    rw [hB ej (List.get?_mem hj)] at hqj
    cases hqj
  exact lt_of_lt_of_le hjA hiA

/-! ### Shape of the canonical distribution under a uniform normalizer -/

theorem canonDist_uniform (normalize : List ℚ → List ℚ) (nodes : List String)
    (hnorm : normalize (List.replicate nodes.length 0)
      = List.replicate nodes.length (1 / (nodes.length : ℚ))) :
    canonDist normalize nodes
      = nodes.zip (List.replicate nodes.length (1 / (nodes.length : ℚ))) := by
  unfold canonDist
  rw [hnorm, List.reverse_replicate]

theorem zip_replicate_props (nodes : List String) (v : ℚ) :
    (nodes.zip (List.replicate nodes.length v)).length = nodes.length ∧
      (nodes.zip (List.replicate nodes.length v)).map Prod.fst = nodes ∧
      (∀ kv ∈ nodes.zip (List.replicate nodes.length v), kv.2 = v) ∧
      (nodes.zip (List.replicate nodes.length v)).map Prod.snd
        = List.replicate nodes.length v := by
  refine ⟨?_, ?_, ?_, ?_⟩
  · simp [List.length_zip]
  · exact List.map_fst_zip _ _ (by simp)
  · intro kv hkv
    exact List.eq_of_mem_replicate (List.of_mem_zip hkv).2
  · exact List.map_snd_zip _ _ (by simp)

theorem sum_replicate_one_div (n : ℕ) (hn : n ≠ 0) :
    (List.replicate n ((1 : ℚ) / n)).sum = 1 := by
  rw [List.sum_replicate, nsmul_eq_mul, mul_one_div]
  exact div_self (Nat.cast_ne_zero.mpr hn)

/-! ### Claims -/

/-- C1: for every non-empty node list with distinct identifiers, every
service-function list and every chain list, and assuming the external
normalizer maps the length-n all-zero list to n values each equal to 1/n,
the schedule returned by `get_schedule` maps each (origin node, chain,
function) triple to a distribution with exactly `len(nodes)` entries, one
per destination node, each entry equal to `1/len(nodes)`, and the entries
summing to 1 exactly (hence within 1e-9). -/
theorem C1_schedule_uniform (nodes sf_list sfc_list : List String)
    (normalize : List ℚ → List ℚ)
    (hne : nodes ≠ []) (hnd : nodes.Nodup)
    (hnorm : normalize (List.replicate nodes.length 0)
      = List.replicate nodes.length (1 / (nodes.length : ℚ))) :
    ∃ s, get_schedule normalize nodes sf_list sfc_list = some s ∧
      ∀ o ∈ nodes, ∀ c ∈ sfc_list, ∀ f ∈ sf_list,
        ∃ dist, schedLookup s o c f = some dist ∧
          dist.length = nodes.length ∧
          dist.map Prod.fst = nodes ∧
          (∀ kv ∈ dist, kv.2 = 1 / (nodes.length : ℚ)) ∧
          (dist.map Prod.snd).sum = 1 := by
  have hlen : (normalize (List.replicate nodes.length 0)).length = nodes.length := by
    rw [hnorm]; simp
  obtain ⟨s, hrun, hleaf⟩ := get_schedule_spec normalize nodes sf_list sfc_list hnd hlen
  refine ⟨s, hrun, ?_⟩
  intro o ho c hc f hf
  refine ⟨canonDist normalize nodes, hleaf o ho c hc f hf, ?_⟩
  rw [canonDist_uniform normalize nodes hnorm]
  obtain ⟨hl, hfst, hval, hsnd⟩ :=
    zip_replicate_props nodes (1 / (nodes.length : ℚ))
  refine ⟨hl, hfst, hval, ?_⟩
  rw [hsnd]
  exact sum_replicate_one_div nodes.length
    (fun h => hne (List.length_eq_zero.mp h))

theorem C1_schedule_uniform_witness :
    ∃ s, get_schedule (fun l => List.replicate l.length (1 / (l.length : ℚ)))
        ["a", "b"] ["f1"] ["c1"] = some s ∧
      ∀ o ∈ (["a", "b"] : List String), ∀ c ∈ (["c1"] : List String),
        ∀ f ∈ (["f1"] : List String),
        ∃ dist, schedLookup s o c f = some dist ∧
          dist.length = (["a", "b"] : List String).length ∧
          dist.map Prod.fst = ["a", "b"] ∧
          (∀ kv ∈ dist, kv.2 = 1 / ((["a", "b"] : List String).length : ℚ)) ∧
          (dist.map Prod.snd).sum = 1 :=
  C1_schedule_uniform ["a", "b"] ["f1"] ["c1"]
    (fun l => List.replicate l.length (1 / (l.length : ℚ)))
    (by decide) (by decide) rfl

/-- C2: the seed resolution `if not args.seed: args.seed =
random.randint(1, 9999)` treats the explicitly supplied seed `0` as falsy
and replaces it with the random draw, contradicting the claim that every
explicitly supplied seed is used as-is; a nonzero explicit seed and an
absent seed behave as claimed.  Evaluated here at the failing input
(explicit seed 0, random draw 42). -/
theorem C2_seed_resolution :
    resolveSeed (some 0) 42 = 42 ∧ resolveSeed (some 5) 42 = 5 ∧
      resolveSeed none 42 = 42 := by
  decide

/-- C3 counterexample: with zero nodes, the schedule-building path neither
fails nor explicitly disallows the case — even under a normalizer that
would return garbage, `get_schedule` silently returns the empty schedule,
and `main` happily uses it downstream (the trace exists). -/
theorem C3_counterexample :
    get_schedule (fun _ => ([] : List ℚ)) [] ["sf1"] ["sfc1"] = some [] ∧
      (mainTrace 1 (some 3) 5 "" "d" "n" "s" "c"
        ⟨[], ["sf1"], ["sfc1"]⟩ 0 (fun _ => ([] : List ℚ))).isSome = true := by
  decide

/-- C3 amended: with zero nodes `get_schedule` performs no normalization at
all — its loops never execute, so the result is the (silently produced)
empty schedule for every normalizer, rather than an error or an explicit
rejection of the case. -/
theorem C3_empty_nodes_silent (normalize : List ℚ → List ℚ)
    (sf_list sfc_list : List String) :
    get_schedule normalize [] sf_list sfc_list = some [] := rfl

/-- C4 counterexample: with a repeated node identifier the placement dict
has fewer entries than the node list (`{"a": ...}` has 1 entry for the
2-element node list `["a", "a"]`), so "number of placement entries equals
the number of nodes in the node list" fails for arbitrary node lists. -/
theorem C4_counterexample :
    (get_placement ["a", "a"] ["f1"]).length = 1 ∧
      (["a", "a"] : List String).length = 2 := by
  decide

/-- C4 amended: for any node list with distinct identifiers and any
service-function list, `get_placement` maps every node to the full
service-function list (hence equal to it as a set), and the number of
placement entries equals the number of nodes. -/
theorem C4_placement (nodes sf_list : List String) (hnd : nodes.Nodup) :
    (∀ x ∈ nodes, dictGet x (get_placement nodes sf_list) = some sf_list) ∧
      (get_placement nodes sf_list).length = nodes.length := by
  rw [get_placement_eq nodes sf_list hnd]
  constructor
  · intro x hx
    exact dictGet_map_const x sf_list nodes hx
  · simp

theorem C4_placement_witness :
    (∀ x ∈ (["a", "b"] : List String),
        dictGet x (get_placement ["a", "b"] ["f1", "f2"]) = some ["f1", "f2"]) ∧
      (get_placement ["a", "b"] ["f1", "f2"]).length
        = (["a", "b"] : List String).length :=
  C4_placement ["a", "b"] ["f1", "f2"] (by decide)

/-- C5: for every iteration count N ≥ 0, the run driver submits exactly N
`apply` calls, and every one of them passes the same action — the
placement/schedule pair computed once after initialization. -/
theorem C5_same_action_each_iteration (iterations : Nat) (seedArg : Option Int)
    (randVal : Int) (root dt network service config : String) (st : InitState)
    (ingressCount : Nat) (normalize : List ℚ → List ℚ)
    (hlen : ∀ l, (normalize l).length = l.length) :
    ∃ t sched, get_schedule normalize st.nodes st.sfs st.sfcs = some sched ∧
      mainTrace iterations seedArg randVal root dt network service config st
        ingressCount normalize = some t ∧
      t.countP isApplyEvent = iterations ∧
      ∀ e ∈ t, isApplyEvent e = true →
        e = Event.apply ⟨get_placement st.nodes st.sfs, sched⟩ := by
  obtain ⟨sched, hs⟩ := get_schedule_isSome normalize st.nodes st.sfs st.sfcs
    (by rw [hlen]; simp)
  refine ⟨_, sched, hs,
    mainTrace_eq iterations seedArg randVal root dt network service config st
      ingressCount normalize sched hs, ?_, ?_⟩
  · rw [List.countP_append, List.countP_cons]
    simp only [isApplyEvent, applyLoop_countP]
    rfl
  · intro e he hApp
    rcases List.mem_append.mp he with hL | hR
    · cases hL with
      | head => cases hApp
      | tail _ htl => exact mem_applyLoop iterations _ e htl
    · simp only [List.mem_cons, List.not_mem_nil, or_false] at hR
      rcases hR with rfl | rfl | rfl | rfl <;> cases hApp

theorem C5_same_action_witness :
    ∃ t sched, get_schedule (fun l => l) (["a"] : List String) ["f"] ["c"]
        = some sched ∧
      mainTrace 2 (some 7) 3 "" "d" "n.g" "s.y" "c.y" ⟨["a"], ["f"], ["c"]⟩ 2
        (fun l => l) = some t ∧
      t.countP isApplyEvent = 2 ∧
      ∀ e ∈ t, isApplyEvent e = true →
        e = Event.apply ⟨get_placement ["a"] ["f"], sched⟩ :=
  C5_same_action_each_iteration 2 (some 7) 3 "" "d" "n.g" "s.y" "c.y"
    ⟨["a"], ["f"], ["c"]⟩ 2 (fun l => l) (fun _ => rfl)

/-- C6: with `iterations = 0` the driver still performs its setup and finalization:
the trace holds exactly one `init` event, zero `apply` events, and still
contains the three input-file copies into the results directory (and the
input-descriptor write). -/
theorem C6_zero_iterations (seedArg : Option Int) (randVal : Int)
    (root dt network service config : String) (st : InitState)
    (ingressCount : Nat) (normalize : List ℚ → List ℚ)
    (hlen : ∀ l, (normalize l).length = l.length) :
    ∃ t, mainTrace 0 seedArg randVal root dt network service config st
        ingressCount normalize = some t ∧
      t.countP isInitEvent = 1 ∧
      t.countP isApplyEvent = 0 ∧
      Event.copyFile network
        (resultsDir root dt network service config (resolveSeed seedArg randVal)
          ++ "/" ++ basename network) ∈ t ∧
      Event.copyFile service
        (resultsDir root dt network service config (resolveSeed seedArg randVal)
          ++ "/" ++ basename service) ∈ t ∧
      Event.copyFile config
        (resultsDir root dt network service config (resolveSeed seedArg randVal)
          ++ "/" ++ basename config) ∈ t ∧
      Event.createInput
        (resultsDir root dt network service config (resolveSeed seedArg randVal))
        ingressCount "LoadBalance" ∈ t := by
  obtain ⟨sched, hs⟩ := get_schedule_isSome normalize st.nodes st.sfs st.sfcs
    (by rw [hlen]; simp)
  refine ⟨_, mainTrace_eq 0 seedArg randVal root dt network service config st
    ingressCount normalize sched hs, ?_, ?_, ?_, ?_, ?_, ?_⟩
  · rfl
  · rfl
  · simp [applyLoop]
  · simp [applyLoop]
  · simp [applyLoop]
  · simp [applyLoop]

theorem C6_zero_iterations_witness :
    ∃ t, mainTrace 0 (some 7) 3 "" "d" "n.g" "s.y" "c.y" ⟨["a"], ["f"], ["c"]⟩ 2
        (fun l => l) = some t ∧
      t.countP isInitEvent = 1 ∧
      t.countP isApplyEvent = 0 ∧
      Event.copyFile "n.g"
        (resultsDir "" "d" "n.g" "s.y" "c.y" (resolveSeed (some 7) 3)
          ++ "/" ++ basename "n.g") ∈ t ∧
      Event.copyFile "s.y"
        (resultsDir "" "d" "n.g" "s.y" "c.y" (resolveSeed (some 7) 3)
          ++ "/" ++ basename "s.y") ∈ t ∧
      Event.copyFile "c.y"
        (resultsDir "" "d" "n.g" "s.y" "c.y" (resolveSeed (some 7) 3)
          ++ "/" ++ basename "c.y") ∈ t ∧
      Event.createInput (resultsDir "" "d" "n.g" "s.y" "c.y" (resolveSeed (some 7) 3))
        2 "LoadBalance" ∈ t :=
  C6_zero_iterations (some 7) 3 "" "d" "n.g" "s.y" "c.y" ⟨["a"], ["f"], ["c"]⟩ 2
    (fun l => l) (fun _ => rfl)

/-- C7: in every run, every file copy of the finalization comes strictly
after every `apply` call of the loop: a copy event's trace position is
strictly greater than every apply event's position. -/
theorem C7_copies_after_applies (iterations : Nat) (seedArg : Option Int)
    (randVal : Int) (root dt network service config : String) (st : InitState)
    (ingressCount : Nat) (normalize : List ℚ → List ℚ)
    (hlen : ∀ l, (normalize l).length = l.length) :
    ∀ t i j ei ej,
      mainTrace iterations seedArg randVal root dt network service config st
        ingressCount normalize = some t →
      t.get? i = some ei → isCopyFileEvent ei = true →
      t.get? j = some ej → isApplyEvent ej = true →
      j < i := by
  obtain ⟨sched, hs⟩ := get_schedule_isSome normalize st.nodes st.sfs st.sfcs
    (by rw [hlen]; simp)
  intro t i j ei ej ht hi hpi hj hqj
  rw [mainTrace_eq iterations seedArg randVal root dt network service config st
    ingressCount normalize sched hs] at ht
  have ht' := Option.some.inj ht
  subst ht'
  refine split_no_cross _ _ isCopyFileEvent isApplyEvent ?_ ?_ i j ei ej hi hpi hj hqj
  · intro e he
    cases he with
    | head => rfl
    | tail _ htl => rw [mem_applyLoop iterations _ e htl]; rfl
  · intro e he
    simp only [List.mem_cons, List.not_mem_nil, or_false] at he
    rcases he with rfl | rfl | rfl | rfl <;> rfl

/-- C8: even for node lists with repeated identifiers, as long as the
normalizer returns a list of the same length as its input, the pop inside
`get_schedule`'s innermost loop never hits an empty list: `get_schedule`
always succeeds. -/
theorem C8_pop_never_fails (nodes sf_list sfc_list : List String)
    (normalize : List ℚ → List ℚ)
    (hlen : ∀ l, (normalize l).length = l.length) :
    ∃ s, get_schedule normalize nodes sf_list sfc_list = some s :=
  get_schedule_isSome normalize nodes sf_list sfc_list (by rw [hlen]; simp)

theorem C8_pop_never_fails_witness :
    ∃ s, get_schedule (fun l => l) ["a", "a"] ["f1"] ["c1"] = some s :=
  C8_pop_never_fails ["a", "a"] ["f1"] ["c1"] (fun l => l) (fun _ => rfl)

theorem C7_copies_after_applies_witness :
    (1 : Nat) < 2 ∧
      (mainTrace 1 (some 7) 3 "" "d" "n.g" "s.y" "c.y" ⟨["a"], ["f"], ["c"]⟩ 2
        (fun l => l)).isSome = true :=
  ⟨C7_copies_after_applies 1 (some 7) 3 "" "d" "n.g" "s.y" "c.y"
      ⟨["a"], ["f"], ["c"]⟩ 2 (fun l => l) (fun _ => rfl)
      [Event.init 7,
       Event.apply ⟨[("a", ["f"])], [("a", [("c", [("f", [("a", 0)])])])]⟩,
       Event.copyFile "n.g" "/results/n/s/c/d_seed7/n.g",
       Event.copyFile "s.y" "/results/n/s/c/d_seed7/s.y",
       Event.copyFile "c.y" "/results/n/s/c/d_seed7/c.y",
       Event.createInput "/results/n/s/c/d_seed7" 2 "LoadBalance"]
      2 1
      (Event.copyFile "n.g" "/results/n/s/c/d_seed7/n.g")
      (Event.apply ⟨[("a", ["f"])], [("a", [("c", [("f", [("a", 0)])])])]⟩)
      (by decide) rfl rfl rfl rfl,
    by decide⟩

/-- C9: `get_schedule` consumes the normalized list from its end: for every
(origin, chain, function) triple, the destination node at position `i` of
a duplicate-free node list receives the element at index
`len(nodes) - 1 - i` of the normalized probability list. -/
theorem C9_reverse_pop (nodes sf_list sfc_list : List String)
    (normalize : List ℚ → List ℚ) (hnd : nodes.Nodup)
    (hlen : (normalize (List.replicate nodes.length 0)).length = nodes.length) :
    ∃ s, get_schedule normalize nodes sf_list sfc_list = some s ∧
      ∀ o ∈ nodes, ∀ c ∈ sfc_list, ∀ f ∈ sf_list, ∀ i (hi : i < nodes.length),
        ∃ dist, schedLookup s o c f = some dist ∧
          dictGet (nodes.get ⟨i, hi⟩) dist
            = (normalize (List.replicate nodes.length 0))[nodes.length - 1 - i]? := by
  obtain ⟨s, hrun, hleaf⟩ := get_schedule_spec normalize nodes sf_list sfc_list hnd hlen
  refine ⟨s, hrun, ?_⟩
  intro o ho c hc f hf i hi
  refine ⟨canonDist normalize nodes, hleaf o ho c hc f hf, ?_⟩
  unfold canonDist
  rw [dictGet_zip_nodup nodes _ hnd (by simp [hlen]) i hi]
  rw [List.getElem?_reverse (by rw [hlen]; exact hi)]
  rw [hlen]

theorem C9_reverse_pop_witness :
    ∃ s, get_schedule (fun _ => [(7 : ℚ), 9]) ["a", "b"] ["f1"] ["c1"] = some s ∧
      ∀ o ∈ (["a", "b"] : List String), ∀ c ∈ (["c1"] : List String),
        ∀ f ∈ (["f1"] : List String),
          ∀ i (hi : i < (["a", "b"] : List String).length),
        ∃ dist, schedLookup s o c f = some dist ∧
          dictGet ((["a", "b"] : List String).get ⟨i, hi⟩) dist
            = ([(7 : ℚ), 9] : List ℚ)[2 - 1 - i]? :=
  C9_reverse_pop ["a", "b"] ["f1"] ["c1"] (fun _ => [(7 : ℚ), 9])
    (by decide) (by decide)

/-- C10: `copy_input_files` creates the target results directory including
missing parents before copying, does not fail when the directory already
exists (no freshness assumption on `fs.dirs`, and the witness runs it with
the target already present), and afterwards the three input files are
present under the target directory with their original basenames.  The
inequality hypotheses rule out the three copies aliasing one another or
overwriting a source before it is read. -/
theorem C10_copy_input_files (fs : FS)
    (target_dir network_path service_path sim_config_path c1 c2 c3 : String)
    (h1 : dictGet network_path fs.files = some c1)
    (h2 : dictGet service_path fs.files = some c2)
    (h3 : dictGet sim_config_path fs.files = some c3)
    (hd12 : target_dir ++ "/" ++ basename network_path
      ≠ target_dir ++ "/" ++ basename service_path)
    (hd13 : target_dir ++ "/" ++ basename network_path
      ≠ target_dir ++ "/" ++ basename sim_config_path)
    (hd23 : target_dir ++ "/" ++ basename service_path
      ≠ target_dir ++ "/" ++ basename sim_config_path)
    (hs2 : service_path ≠ target_dir ++ "/" ++ basename network_path)
    (hs3a : sim_config_path ≠ target_dir ++ "/" ++ basename network_path)
    (hs3b : sim_config_path ≠ target_dir ++ "/" ++ basename service_path) :
    ∃ fs', copy_input_files fs target_dir network_path service_path sim_config_path
        = some fs' ∧
      target_dir ∈ fs'.dirs ∧
      (∀ p ∈ ancestorDirs target_dir, p ∈ fs'.dirs) ∧
      (∀ p ∈ fs.dirs, p ∈ fs'.dirs) ∧
      dictGet (target_dir ++ "/" ++ basename network_path) fs'.files = some c1 ∧
      dictGet (target_dir ++ "/" ++ basename service_path) fs'.files = some c2 ∧
      dictGet (target_dir ++ "/" ++ basename sim_config_path) fs'.files = some c3 := by
  have e1 : makedirs fs target_dir true
      = some ⟨fs.dirs ++ (ancestorDirs target_dir ++ [target_dir]).filter
          (fun p => decide (p ∉ fs.dirs)), fs.files⟩ := by
    unfold makedirs
    simp
  have e2 : copyfile
      ⟨fs.dirs ++ (ancestorDirs target_dir ++ [target_dir]).filter
          (fun p => decide (p ∉ fs.dirs)), fs.files⟩
      network_path (target_dir ++ "/" ++ basename network_path)
      = some ⟨fs.dirs ++ (ancestorDirs target_dir ++ [target_dir]).filter
          (fun p => decide (p ∉ fs.dirs)),
        dictSet (target_dir ++ "/" ++ basename network_path) c1 fs.files⟩ := by
    unfold copyfile
    rw [show dictGet network_path
        (⟨fs.dirs ++ (ancestorDirs target_dir ++ [target_dir]).filter
          (fun p => decide (p ∉ fs.dirs)), fs.files⟩ : FS).files = some c1 from h1]
  have hget2 : dictGet service_path
      (dictSet (target_dir ++ "/" ++ basename network_path) c1 fs.files) = some c2 := by
    rw [dictGet_dictSet, if_neg (fun h => hs2 h.symm)]
    exact h2
  have e3 : copyfile
      ⟨fs.dirs ++ (ancestorDirs target_dir ++ [target_dir]).filter
          (fun p => decide (p ∉ fs.dirs)),
        dictSet (target_dir ++ "/" ++ basename network_path) c1 fs.files⟩
      service_path (target_dir ++ "/" ++ basename service_path)
      = some ⟨fs.dirs ++ (ancestorDirs target_dir ++ [target_dir]).filter
          (fun p => decide (p ∉ fs.dirs)),
        dictSet (target_dir ++ "/" ++ basename service_path) c2
          (dictSet (target_dir ++ "/" ++ basename network_path) c1 fs.files)⟩ := by
    unfold copyfile
    rw [show dictGet service_path
        (⟨fs.dirs ++ (ancestorDirs target_dir ++ [target_dir]).filter
          (fun p => decide (p ∉ fs.dirs)),
        dictSet (target_dir ++ "/" ++ basename network_path) c1 fs.files⟩ : FS).files
        = some c2 from hget2]
  have hget3 : dictGet sim_config_path
      (dictSet (target_dir ++ "/" ++ basename service_path) c2
        (dictSet (target_dir ++ "/" ++ basename network_path) c1 fs.files))
      = some c3 := by
    rw [dictGet_dictSet, if_neg (fun h => hs3b h.symm),
      dictGet_dictSet, if_neg (fun h => hs3a h.symm)]
    exact h3
  have e4 : copyfile
      ⟨fs.dirs ++ (ancestorDirs target_dir ++ [target_dir]).filter
          (fun p => decide (p ∉ fs.dirs)),
        dictSet (target_dir ++ "/" ++ basename service_path) c2
          (dictSet (target_dir ++ "/" ++ basename network_path) c1 fs.files)⟩
      sim_config_path (target_dir ++ "/" ++ basename sim_config_path)
      = some ⟨fs.dirs ++ (ancestorDirs target_dir ++ [target_dir]).filter
          (fun p => decide (p ∉ fs.dirs)),
        dictSet (target_dir ++ "/" ++ basename sim_config_path) c3
          (dictSet (target_dir ++ "/" ++ basename service_path) c2
            (dictSet (target_dir ++ "/" ++ basename network_path) c1 fs.files))⟩ := by
    unfold copyfile
    rw [show dictGet sim_config_path
        (⟨fs.dirs ++ (ancestorDirs target_dir ++ [target_dir]).filter
          (fun p => decide (p ∉ fs.dirs)),
        dictSet (target_dir ++ "/" ++ basename service_path) c2
          (dictSet (target_dir ++ "/" ++ basename network_path) c1 fs.files)⟩ : FS).files
        = some c3 from hget3]
  have hmemD : ∀ p, p ∈ ancestorDirs target_dir ++ [target_dir] →
      p ∈ fs.dirs ++ (ancestorDirs target_dir ++ [target_dir]).filter
        (fun p => decide (p ∉ fs.dirs)) := by
    intro p hp
    by_cases hpin : p ∈ fs.dirs
    · exact List.mem_append_left _ hpin
    · exact List.mem_append_right _ (List.mem_filter.mpr ⟨hp, by simpa using hpin⟩)
  refine ⟨⟨fs.dirs ++ (ancestorDirs target_dir ++ [target_dir]).filter
      (fun p => decide (p ∉ fs.dirs)),
    dictSet (target_dir ++ "/" ++ basename sim_config_path) c3
      (dictSet (target_dir ++ "/" ++ basename service_path) c2
        (dictSet (target_dir ++ "/" ++ basename network_path) c1 fs.files))⟩,
    ?_, ?_, ?_, ?_, ?_, ?_, ?_⟩
  · unfold copy_input_files
    rw [e1]
    dsimp only
    rw [e2]
    dsimp only
    rw [e3]
    dsimp only
    exact e4
  · exact hmemD target_dir (List.mem_append_right _ (by simp))
  · intro p hp
    exact hmemD p (List.mem_append_left _ hp)
  · intro p hp
    exact List.mem_append_left _ hp
  · rw [dictGet_dictSet, if_neg (fun h => hd13 h.symm),
      dictGet_dictSet, if_neg (fun h => hd12 h.symm),
      dictGet_dictSet, if_pos rfl]
  · rw [dictGet_dictSet, if_neg (fun h => hd23 h.symm),
      dictGet_dictSet, if_pos rfl]
  · rw [dictGet_dictSet, if_pos rfl]

theorem C10_copy_input_files_witness :
    ∃ fs', copy_input_files ⟨["res"], [("net/a.n", "A"), ("srv/b.s", "B"),
        ("cfg/c.c", "C")]⟩ "res" "net/a.n" "srv/b.s" "cfg/c.c" = some fs' ∧
      "res" ∈ fs'.dirs ∧
      (∀ p ∈ ancestorDirs "res", p ∈ fs'.dirs) ∧
      (∀ p ∈ (⟨["res"], [("net/a.n", "A"), ("srv/b.s", "B"),
        ("cfg/c.c", "C")]⟩ : FS).dirs, p ∈ fs'.dirs) ∧
      dictGet ("res" ++ "/" ++ basename "net/a.n") fs'.files = some "A" ∧
      dictGet ("res" ++ "/" ++ basename "srv/b.s") fs'.files = some "B" ∧
      dictGet ("res" ++ "/" ++ basename "cfg/c.c") fs'.files = some "C" :=
  C10_copy_input_files ⟨["res"], [("net/a.n", "A"), ("srv/b.s", "B"), ("cfg/c.c", "C")]⟩
    "res" "net/a.n" "srv/b.s" "cfg/c.c" "A" "B" "C"
    (by decide) (by decide) (by decide) (by decide) (by decide) (by decide)
    (by decide) (by decide) (by decide)

end LoadBalance
